import Mathlib

/-!
Verification of the runtime core of the log4rs logging library
(file src/lib.rs): the hierarchical logger configuration tree
(ConfiguredLogger), the shared logging state (SharedLogger), the
per-event dispatch loop, the initialization entry point (init_file)
and the background configuration reload loop (ConfigReloader::run).

Namespace paths are embedded as lists of segments: the Rust code
splits path strings on the separator and compares segments by exact
string equality, so a path string corresponds to the list of its
segments, and an empty remaining path corresponds to the empty list.
-/

/-- Severity filters, in the order declared by the log crate:
Off < Error < Warn < Info < Debug < Trace. -/
inductive LogLevelFilter : Type where
  | Off : LogLevelFilter
  | Error : LogLevelFilter
  | Warn : LogLevelFilter
  | Info : LogLevelFilter
  | Debug : LogLevelFilter
  | Trace : LogLevelFilter
deriving DecidableEq, Repr

/-- Event severities, in the order declared by the log crate:
Error < Warn < Info < Debug < Trace. -/
inductive LogLevel : Type where
  | Error : LogLevel
  | Warn : LogLevel
  | Info : LogLevel
  | Debug : LogLevel
  | Trace : LogLevel
deriving DecidableEq, Repr

/-- Numeric value of a severity filter (the discriminant used by the
log crate for comparisons: Off = 0, ..., Trace = 5). -/
def LogLevelFilter.toNat : LogLevelFilter → Nat
  | .Off => 0
  | .Error => 1
  | .Warn => 2
  | .Info => 3
  | .Debug => 4
  | .Trace => 5

/-- Numeric value of an event severity (Error = 1, ..., Trace = 5). -/
def LogLevel.toNat : LogLevel → Nat
  | .Error => 1
  | .Warn => 2
  | .Info => 3
  | .Debug => 4
  | .Trace => 5

/-- The comparison `filter >= level` between a severity filter and an
event severity, performed by the log crate on the numeric values. -/
def LogLevelFilter.ge_level (f : LogLevelFilter) (l : LogLevel) : Bool :=
  decide (l.toNat ≤ f.toNat)

/-- The maximum of two severity filters (cmp::max on the derived order). -/
def LogLevelFilter.fmax (a b : LogLevelFilter) : LogLevelFilter :=
  if a.toNat ≤ b.toNat then b else a

/-- One node of the logger configuration tree (struct ConfiguredLogger):
a severity filter, the indices of the appenders this node dispatches to,
and the named children, in insertion order. -/
inductive ConfiguredLogger : Type where
  | mk (level : LogLevelFilter) (appenders : List Nat)
       (children : List (String × ConfiguredLogger)) : ConfiguredLogger

/-- The severity filter of a node. -/
def ConfiguredLogger.level : ConfiguredLogger → LogLevelFilter
  | .mk l _ _ => l

/-- The appender indices of a node. -/
def ConfiguredLogger.appenders : ConfiguredLogger → List Nat
  | .mk _ a _ => a

/-- The children of a node, in insertion order. -/
def ConfiguredLogger.children : ConfiguredLogger → List (String × ConfiguredLogger)
  | .mk _ _ c => c

theorem ConfiguredLogger.eta (t : ConfiguredLogger) :
    ConfiguredLogger.mk t.level t.appenders t.children = t := by
  cases t
  rfl

/-- Replace the first child whose name equals `part` by the image of its
node under `f`; `none` when no child matches. This is the embedding of
the child-search loop of ConfiguredLogger::add, which recurses into the
first matching child and returns. -/
def replaceFirst (f : ConfiguredLogger → ConfiguredLogger) (part : String) :
    List (String × ConfiguredLogger) → Option (List (String × ConfiguredLogger))
  | [] => none
  | (s, c) :: cs =>
    if s = part then some ((s, f c) :: cs)
    else
      match replaceFirst f part cs with
      | some cs' => some ((s, c) :: cs')
      | none => none

mutual

/-- ConfiguredLogger::add called with an exhausted path (the empty
remaining path, which the Rust code splits into an empty first segment
and an empty rest): descend into the first child named by the empty
segment when one exists, otherwise create the target child for the
empty segment, extending its appenders with the current node's
appenders when the rule is additive. -/
def addHere (aps : List Nat) (additive : Bool) (lv : LogLevelFilter) :
    ConfiguredLogger → ConfiguredLogger
  | .mk l a cs =>
    match addHereChildren aps additive lv cs with
    | some cs' => .mk l a cs'
    | none =>
      .mk l a (cs ++ [("", .mk lv (if additive then aps ++ a else aps) [])])

/-- The child-search loop of `addHere` over the children list. -/
def addHereChildren (aps : List Nat) (additive : Bool) (lv : LogLevelFilter) :
    List (String × ConfiguredLogger) → Option (List (String × ConfiguredLogger))
  | [] => none
  | (s, c) :: cs =>
    if s = "" then some ((s, addHere aps additive lv c) :: cs)
    else
      match addHereChildren aps additive lv cs with
      | some cs' => some ((s, c) :: cs')
      | none => none

end

/-- ConfiguredLogger::add: insert a rule (path, appenders, additive,
level) into the tree. Split the path into its first segment and rest;
recurse into the first matching child when one exists; otherwise
create a new child: the target node itself when the rest is empty
(extending the appenders with the current node's appenders when
additive), or an intermediate node inheriting the current node's level
and appenders, into which the rest is inserted. The new child is
pushed at the end of the children list. -/
def ConfiguredLogger.add (t : ConfiguredLogger) (path : List String)
    (aps : List Nat) (additive : Bool) (lv : LogLevelFilter) : ConfiguredLogger :=
  match path, t with
  | [], t => addHere aps additive lv t
  | part :: rest, .mk l a cs =>
    match replaceFirst (fun c => c.add rest aps additive lv) part cs with
    | some cs' => .mk l a cs'
    | none =>
      let child :=
        if rest.isEmpty then
          ConfiguredLogger.mk lv (if additive then aps ++ a else aps) []
        else
          ConfiguredLogger.add (.mk l a []) rest aps additive lv
      .mk l a (cs ++ [(part, child)])

/-- First child of a children list whose name equals `part`. -/
def childFor (part : String) : List (String × ConfiguredLogger) → Option ConfiguredLogger
  | [] => none
  | (s, c) :: cs => if s = part then some c else childFor part cs

/-- ConfiguredLogger::find: walk the path segments, descending into the
first child matching each segment, stopping at the first non-matching
segment or at path exhaustion, and return the node reached. -/
def ConfiguredLogger.find (t : ConfiguredLogger) : List String → ConfiguredLogger
  | [] => t
  | part :: rest =>
    match childFor part t.children with
    | some c => c.find rest
    | none => t

/-- ConfiguredLogger::enabled: the node's filter admits the level. -/
def ConfiguredLogger.enabled (t : ConfiguredLogger) (l : LogLevel) : Bool :=
  t.level.ge_level l

mutual

/-- ConfiguredLogger::max_log_level: the maximum severity filter over
the node and all of its descendants. -/
def ConfiguredLogger.max_log_level : ConfiguredLogger → LogLevelFilter
  | .mk l _ cs => maxLevelChildren l cs

/-- The fold of `max_log_level` over a children list. -/
def maxLevelChildren (m : LogLevelFilter) : List (String × ConfiguredLogger) → LogLevelFilter
  | [] => m
  | (_, c) :: cs => maxLevelChildren (m.fmax c.max_log_level) cs

end

/-- A log record: its severity and the module path of its origin,
embedded as segments. -/
structure LogRecord : Type where
  level : LogLevel
  modulePath : List String

/-- A sink (an object implementing the Append trait): its append method
returns ok or an error message. -/
def Sink : Type := LogRecord → Except String Unit

/-- The dispatch loop of ConfiguredLogger::log over the appender
indices: for each index in order, index into the appender table and
invoke append, reporting a failure to the diagnostic channel
(handle_error) and continuing. Returns `none` when an index is out of
bounds (the indexing panics), otherwise the list of indices invoked in
order together with the error messages reported, in order. -/
def runAppends (table : List Sink) (rec : LogRecord) :
    List Nat → Option (List Nat × List String)
  | [] => some ([], [])
  | idx :: rest =>
    match table[idx]? with
    | none => none
    | some append =>
      match runAppends table rec rest with
      | none => none
      | some (inv, errs) =>
        some (idx :: inv,
          match append rec with
          | .error e => e :: errs
          | .ok _ => errs)

/-- ConfiguredLogger::log: when the record's level is enabled at this
node, run the dispatch loop over the node's appender indices; otherwise
do nothing. -/
def ConfiguredLogger.log (t : ConfiguredLogger) (rec : LogRecord)
    (table : List Sink) : Option (List Nat × List String) :=
  if t.enabled rec.level then runAppends table rec t.appenders
  else some ([], [])

/-- Modelled from the spec, section 4.1 operation resolve: the walk that
descends from a node through children matched by exact segment equality,
failing when some segment has no matching child. `descendExact t p = some u`
states that `u` is the node of `t` sitting exactly at path `p`. -/
def descendExact (t : ConfiguredLogger) : List String → Option ConfiguredLogger
  | [] => some t
  | part :: rest =>
    match childFor part t.children with
    | some c => descendExact c rest
    | none => none

/-- Apply `f` to the node sitting at path `p` (first matching child at
each step), leaving the rest of the tree untouched; the identity when
the path does not fully match. -/
def updateAt (t : ConfiguredLogger) (p : List String)
    (f : ConfiguredLogger → ConfiguredLogger) : ConfiguredLogger :=
  match p, t with
  | [], t => f t
  | part :: rest, .mk l a cs =>
    .mk l a ((replaceFirst (fun c => updateAt c rest f) part cs).getD cs)

/-- No string occurs twice in the list. -/
def allDistinct : List String → Bool
  | [] => true
  | s :: l => !(l.any (fun x => decide (x = s))) && allDistinct l

mutual

/-- Every node of the tree has pairwise distinct child names. -/
def nodupB : ConfiguredLogger → Bool
  | .mk _ _ cs => allDistinct (cs.map Prod.fst) && nodupChildren cs

/-- `nodupB` folded over a children list. -/
def nodupChildren : List (String × ConfiguredLogger) → Bool
  | [] => true
  | (_, c) :: cs => nodupB c && nodupChildren cs

end

mutual

/-- Every appender index stored anywhere in the tree is below `n`. -/
def boundedB (n : Nat) : ConfiguredLogger → Bool
  | .mk _ a cs => a.all (fun i => i < n) && boundedChildren n cs

/-- `boundedB` folded over a children list. -/
def boundedChildren (n : Nat) : List (String × ConfiguredLogger) → Bool
  | [] => true
  | (_, c) :: cs => boundedB n c && boundedChildren n cs

end

/-- A named appender from the configuration (config::Appender): its
name and the boxed sink it carries. -/
structure ConfigAppender : Type where
  name : String
  sink : Sink

/-- The root entry of the configuration (config::Root): a severity
filter and the names of the appenders attached to the root. -/
structure ConfigRoot : Type where
  level : LogLevelFilter
  appenders : List String

/-- A named logger rule from the configuration (config::Logger): its
namespace path as segments, the names of its appenders, its additive
flag and its severity filter. -/
structure ConfigLogger : Type where
  name : List String
  appenders : List String
  additive : Bool
  level : LogLevelFilter

/-- A validated configuration (config::Config): appenders, root and
logger rules, in the order collected from the configuration. -/
structure Config : Type where
  appenders : List ConfigAppender
  root : ConfigRoot
  loggers : List ConfigLogger

/-- Index of the last appender with the given name (the appender map of
SharedLogger::new is a hash map collected from an enumeration, so a
later entry with the same name wins); `none` when the name is absent,
in which case the map indexing in the Rust code panics. -/
def appenderIdx (name : String) : List ConfigAppender → Option Nat
  | [] => none
  | a :: as =>
    match appenderIdx name as with
    | some i => some (i + 1)
    | none => if a.name = name then some 0 else none

/-- Look up every name in the appender map; `none` as soon as one name
is absent. -/
def lookupAll (apps : List ConfigAppender) : List String → Option (List Nat)
  | [] => some []
  | n :: ns =>
    match appenderIdx n apps, lookupAll apps ns with
    | some i, some is => some (i :: is)
    | _, _ => none

/-- Fold of ConfiguredLogger::add over the logger rules, in order, each
rule's appender names resolved through the appender map first. -/
def applyLoggers (apps : List ConfigAppender) :
    ConfiguredLogger → List ConfigLogger → Option ConfiguredLogger
  | r, [] => some r
  | r, lg :: lgs =>
    match lookupAll apps lg.appenders with
    | none => none
    | some aps => applyLoggers apps (r.add lg.name aps lg.additive lg.level) lgs

/-- The shared logging state (struct SharedLogger): the configuration
tree and the table of live sinks, indexed by the indices stored in the
tree. -/
structure SharedLogger : Type where
  root : ConfiguredLogger
  appenders : List Sink

/-- SharedLogger::new: build the appender map, resolve the root's
appender names, fold the logger rules into the tree with
ConfiguredLogger::add in order, and keep the sink table in appender
order. `none` when an appender name fails to resolve (the map indexing
in the Rust code panics). -/
def SharedLogger.new (c : Config) : Option SharedLogger :=
  match lookupAll c.appenders c.root.appenders with
  | none => none
  | some rootAps =>
    match applyLoggers c.appenders (.mk c.root.level rootAps []) c.loggers with
    | none => none
    | some root => some ⟨root, c.appenders.map ConfigAppender.sink⟩

/-- Log::enabled on the Logger facade: resolve the module path in the
tree with find, then test the record level at the node reached. -/
def loggerEnabled (sh : SharedLogger) (l : LogLevel) (modPath : List String) : Bool :=
  (sh.root.find modPath).enabled l

/-- Log::log on the Logger facade: resolve the record's module path
with find, then dispatch at the node reached. -/
def loggerLog (sh : SharedLogger) (rec : LogRecord) : Option (List Nat × List String) :=
  (sh.root.find rec.modulePath).log rec sh.appenders

/-- The parsed configuration document (toml::Config as consumed by
lib.rs): an optional refresh interval and the validated configuration. -/
structure TomlConfig : Type where
  refresh_rate : Option Nat
  config : Config

/-- The private state of the reload loop (struct ConfigReloader, run):
the last known modification time, the poll interval, the shared logging
state behind the mutex, and whether the loop is still running. -/
structure ReloadState : Type where
  mtime : Nat
  rate : Nat
  shared : SharedLogger
  running : Bool

/-- One iteration of ConfigReloader::run, driven by the outcome of the
two fallible environment interactions of that iteration: reading the
source's modification time and loading/parsing the configuration.
Returns the successor state together with a flag telling whether this
iteration attempted a reload (reached load_config). The iteration:
report and skip on a metadata error; skip when the modification time is
unchanged; otherwise store the new modification time first, then load:
on a load error report and skip; on success build the new shared state,
swap it in under the lock, and adopt the new interval, terminating the
loop when none is given. A panic while building (an unresolvable
appender name) kills the reload thread. -/
def reloadStep (st : ReloadState) (meta : Except Unit Nat)
    (load : Except Unit TomlConfig) : ReloadState × Bool :=
  if st.running then
    match meta with
    | .error _ => (st, false)
    | .ok m =>
      if m = st.mtime then (st, false)
      else
        let st1 : ReloadState := { st with mtime := m }
        match load with
        | .error _ => (st1, true)
        | .ok tc =>
          match SharedLogger.new tc.config with
          | none => ({ st1 with running := false }, true)
          | some sh =>
            match tc.refresh_rate with
            | some r => ({ st1 with shared := sh, rate := r }, true)
            | none => ({ st1 with shared := sh, running := false }, true)
  else (st, false)

/-- The process-wide logging state installed by log::set_logger: the
precomputed maximum enabled severity held by the log crate, and the
reload loop state (which owns the shared logging state). -/
structure ProcessState : Type where
  maxLevel : LogLevelFilter
  reload : ReloadState

/-- Effect of one reload-loop iteration on the process-wide state. The
reloader (struct ConfigReloader) holds the path, rate, mtime, creator
and shared handle but no handle to the max severity of the log crate,
so an iteration of run can only change the reload state. -/
def processReloadStep (p : ProcessState) (meta : Except Unit Nat)
    (load : Except Unit TomlConfig) : ProcessState :=
  { p with reload := (reloadStep p.reload meta load).1 }

/-- The empty fallback configuration built by init_file on a failed
initial load: no appenders, root threshold Off, no logger rules. -/
def emptyConfig : Config :=
  { appenders := [], root := { level := .Off, appenders := [] }, loggers := [] }

/-- The outcome of init_file: the installed shared state, the maximum
severity handed to the log crate, and whether a reload loop was
started. -/
structure InitResult : Type where
  maxLevel : LogLevelFilter
  shared : SharedLogger
  reloaderStarted : Bool

/-- init_file, driven by the outcome of the initial synchronous load:
on failure, report the error and install the empty fallback
configuration with no refresh rate, so no reload loop starts; on
success install the loaded configuration and start the reload loop
exactly when a refresh rate is present. In both cases the maximum
severity handed to the log crate is the max_log_level of the installed
tree. `none` when building the shared state panics. -/
def initFile (loadResult : Except Unit TomlConfig) : Option InitResult :=
  let rrcfg : Option Nat × Config :=
    match loadResult with
    | .error _ => (none, emptyConfig)
    | .ok tc => (tc.refresh_rate, tc.config)
  match SharedLogger.new rrcfg.2 with
  | none => none
  | some sh =>
    some { maxLevel := sh.root.max_log_level, shared := sh,
           reloaderStarted := rrcfg.1.isSome }

/-! ### Helper lemmas about the child-search primitives -/

/-- The empty path segment, created by a rule whose path is exhausted
at an existing node. -/
def emptySeg : String := ""

theorem childFor_eq_none {part : String} {cs : List (String × ConfiguredLogger)} :
    childFor part cs = none ↔ ∀ x ∈ cs, x.1 ≠ part := by
  induction cs with
  | nil => simp [childFor]
  | cons hd tl ih =>
    obtain ⟨s, c⟩ := hd
    by_cases h : s = part <;> simp [childFor, h, ih]

theorem replaceFirst_eq_none {f : ConfiguredLogger → ConfiguredLogger} {part : String}
    {cs : List (String × ConfiguredLogger)} :
    replaceFirst f part cs = none ↔ childFor part cs = none := by
  induction cs with
  | nil => simp [replaceFirst, childFor]
  | cons hd tl ih =>
    obtain ⟨s, c⟩ := hd
    by_cases h : s = part
    · simp [replaceFirst, childFor, h]
    · simp only [replaceFirst, childFor, h, if_false]
      cases hr : replaceFirst f part tl with
      | some cs' =>
        rw [hr] at ih
        simp at ih
        simp [ih]
      | none =>
        rw [hr] at ih
        simpa using ih

theorem replaceFirst_some_decomp {f : ConfiguredLogger → ConfiguredLogger} {part : String}
    {cs cs' : List (String × ConfiguredLogger)}
    (h : replaceFirst f part cs = some cs') :
    ∃ l1 c l2, cs = l1 ++ (part, c) :: l2 ∧ (∀ x ∈ l1, x.1 ≠ part) ∧
      cs' = l1 ++ (part, f c) :: l2 := by
  induction cs generalizing cs' with
  | nil => simp [replaceFirst] at h
  | cons hd tl ih =>
    obtain ⟨s, c⟩ := hd
    by_cases hs : s = part
    · subst hs
      simp [replaceFirst] at h
      exact ⟨[], c, tl, by simp, by simp, by simp [← h]⟩
    · simp only [replaceFirst, hs, if_false] at h
      cases hr : replaceFirst f part tl with
      | none => simp [hr] at h
      | some cs'' =>
        simp [hr] at h
        obtain ⟨l1, c0, l2, he, hl1, he'⟩ := ih hr
        exact ⟨(s, c) :: l1, c0, l2, by simp [he], by simpa [hs] using hl1,
          by simp [← h, he']⟩

theorem childFor_of_decomp {part : String} {c : ConfiguredLogger}
    {l1 l2 : List (String × ConfiguredLogger)} (h : ∀ x ∈ l1, x.1 ≠ part) :
    childFor part (l1 ++ (part, c) :: l2) = some c := by
  induction l1 with
  | nil => simp [childFor]
  | cons hd tl ih =>
    have hne : hd.1 ≠ part := h hd (by simp)
    obtain ⟨s, c0⟩ := hd
    simp only [List.cons_append, childFor, hne, if_false]
    exact ih (fun x hx => h x (by simp [hx]))

theorem childFor_mid_irrel {p q : String} {c c' : ConfiguredLogger}
    (hpq : p ≠ q) (l1 l2 : List (String × ConfiguredLogger)) :
    childFor p (l1 ++ (q, c) :: l2) = childFor p (l1 ++ (q, c') :: l2) := by
  induction l1 with
  | nil =>
    have hqp : ¬(q = p) := fun h => hpq h.symm
    simp [childFor, hqp]
  | cons hd tl ih =>
    obtain ⟨s, c0⟩ := hd
    by_cases hsp : s = p <;> simp [childFor, hsp, ih]

theorem childFor_replaceFirst {f : ConfiguredLogger → ConfiguredLogger} {q : String}
    {cs cs' : List (String × ConfiguredLogger)}
    (h : replaceFirst f q cs = some cs') (p : String) :
    childFor p cs' = if p = q then (childFor p cs).map f else childFor p cs := by
  obtain ⟨l1, c, l2, he, hl1, he'⟩ := replaceFirst_some_decomp h
  subst he he'
  by_cases hpq : p = q
  · subst hpq
    rw [childFor_of_decomp hl1, childFor_of_decomp hl1]
    simp
  · simp only [hpq, if_false]
    exact childFor_mid_irrel hpq l1 l2

theorem childFor_append_some {p : String} {c : ConfiguredLogger}
    {cs l : List (String × ConfiguredLogger)} (h : childFor p cs = some c) :
    childFor p (cs ++ l) = some c := by
  induction cs with
  | nil => simp [childFor] at h
  | cons hd tl ih =>
    obtain ⟨s, c0⟩ := hd
    by_cases hs : s = p <;> simp_all [childFor, hs]

theorem childFor_append_none {p k : String} {d : ConfiguredLogger}
    {cs : List (String × ConfiguredLogger)} (h : childFor p cs = none) :
    childFor p (cs ++ [(k, d)]) = if k = p then some d else none := by
  induction cs with
  | nil => simp [childFor]
  | cons hd tl ih =>
    obtain ⟨s, c0⟩ := hd
    by_cases hs : s = p <;> simp_all [childFor, hs]

theorem addHereChildren_eq (aps : List Nat) (b : Bool) (lv : LogLevelFilter)
    (cs : List (String × ConfiguredLogger)) :
    addHereChildren aps b lv cs = replaceFirst (addHere aps b lv) emptySeg cs := by
  induction cs with
  | nil => simp [addHereChildren, replaceFirst]
  | cons hd tl ih =>
    obtain ⟨s, c⟩ := hd
    by_cases hs : s = emptySeg
    · simp only [emptySeg] at hs
      simp [addHereChildren, replaceFirst, emptySeg, hs]
    · simp only [emptySeg] at hs
      simp [addHereChildren, replaceFirst, emptySeg, hs, ih]

/-! ### The insert operation keeps the fields of the node it is called on -/

theorem addHere_level (aps : List Nat) (b : Bool) (lv : LogLevelFilter)
    (t : ConfiguredLogger) : (addHere aps b lv t).level = t.level := by
  obtain ⟨l, a, cs⟩ := t
  simp only [addHere]
  cases addHereChildren aps b lv cs <;> simp [ConfiguredLogger.level]

theorem addHere_appenders (aps : List Nat) (b : Bool) (lv : LogLevelFilter)
    (t : ConfiguredLogger) : (addHere aps b lv t).appenders = t.appenders := by
  obtain ⟨l, a, cs⟩ := t
  simp only [addHere]
  cases addHereChildren aps b lv cs <;> simp [ConfiguredLogger.appenders]

theorem add_level (t : ConfiguredLogger) (path : List String) (aps : List Nat)
    (b : Bool) (lv : LogLevelFilter) :
    (t.add path aps b lv).level = t.level := by
  cases path with
  | nil => exact addHere_level aps b lv t
  | cons part rest =>
    obtain ⟨l, a, cs⟩ := t
    simp only [ConfiguredLogger.add]
    cases replaceFirst (fun c => c.add rest aps b lv) part cs <;>
      simp [ConfiguredLogger.level]

theorem add_appenders (t : ConfiguredLogger) (path : List String) (aps : List Nat)
    (b : Bool) (lv : LogLevelFilter) :
    (t.add path aps b lv).appenders = t.appenders := by
  cases path with
  | nil => exact addHere_appenders aps b lv t
  | cons part rest =>
    obtain ⟨l, a, cs⟩ := t
    simp only [ConfiguredLogger.add]
    cases replaceFirst (fun c => c.add rest aps b lv) part cs <;>
      simp [ConfiguredLogger.appenders]

/-! ### Structural recursion support and unfolding equations -/

theorem level_mk (l : LogLevelFilter) (a : List Nat)
    (cs : List (String × ConfiguredLogger)) :
    (ConfiguredLogger.mk l a cs).level = l := rfl

theorem appenders_mk (l : LogLevelFilter) (a : List Nat)
    (cs : List (String × ConfiguredLogger)) :
    (ConfiguredLogger.mk l a cs).appenders = a := rfl

theorem children_mk (l : LogLevelFilter) (a : List Nat)
    (cs : List (String × ConfiguredLogger)) :
    (ConfiguredLogger.mk l a cs).children = cs := rfl

theorem childFor_mem {part : String} {c : ConfiguredLogger}
    {cs : List (String × ConfiguredLogger)} (h : childFor part cs = some c) :
    (part, c) ∈ cs := by
  induction cs with
  | nil => simp [childFor] at h
  | cons hd tl ih =>
    obtain ⟨s, c0⟩ := hd
    by_cases hs : s = part
    · subst hs
      simp [childFor] at h
      simp [h]
    · simp only [childFor, hs, if_false] at h
      exact List.mem_cons_of_mem _ (ih h)

theorem sizeOf_mem_children {s : String} {c : ConfiguredLogger}
    {l : LogLevelFilter} {a : List Nat} {cs : List (String × ConfiguredLogger)}
    (h : (s, c) ∈ cs) : sizeOf c < sizeOf (ConfiguredLogger.mk l a cs) := by
  have h1 := List.sizeOf_lt_of_mem h
  simp only [Prod.mk.sizeOf_spec] at h1
  simp only [ConfiguredLogger.mk.sizeOf_spec]
  omega

theorem add_nil_eq (t : ConfiguredLogger) (aps : List Nat) (b : Bool)
    (lv : LogLevelFilter) : t.add [] aps b lv = addHere aps b lv t := rfl

theorem add_cons_eq (l : LogLevelFilter) (a : List Nat)
    (cs : List (String × ConfiguredLogger)) (part : String) (rest : List String)
    (aps : List Nat) (b : Bool) (lv : LogLevelFilter) :
    ConfiguredLogger.add (.mk l a cs) (part :: rest) aps b lv =
      match replaceFirst (fun c => c.add rest aps b lv) part cs with
      | some cs' => .mk l a cs'
      | none =>
        .mk l a (cs ++ [(part,
          if rest.isEmpty then ConfiguredLogger.mk lv (if b then aps ++ a else aps) []
          else ConfiguredLogger.add (.mk l a []) rest aps b lv)]) := rfl

theorem addHere_eq (aps : List Nat) (b : Bool) (lv : LogLevelFilter)
    (l : LogLevelFilter) (a : List Nat) (cs : List (String × ConfiguredLogger)) :
    addHere aps b lv (.mk l a cs) =
      match replaceFirst (addHere aps b lv) emptySeg cs with
      | some cs' => .mk l a cs'
      | none =>
        .mk l a (cs ++ [(emptySeg, .mk lv (if b then aps ++ a else aps) [])]) := by
  rw [show addHere aps b lv (.mk l a cs) =
      match addHereChildren aps b lv cs with
      | some cs' => ConfiguredLogger.mk l a cs'
      | none =>
        ConfiguredLogger.mk l a
          (cs ++ [("", .mk lv (if b then aps ++ a else aps) [])]) from rfl]
  rw [addHereChildren_eq]
  rfl

theorem sizeOf_childFor {part : String} {c : ConfiguredLogger}
    {t : ConfiguredLogger} (h : childFor part t.children = some c) :
    sizeOf c < sizeOf t := by
  obtain ⟨l, a, cs⟩ := t
  exact sizeOf_mem_children (childFor_mem h)

theorem addHere_node_eq (aps : List Nat) (b : Bool) (lv : LogLevelFilter)
    (t : ConfiguredLogger) :
    addHere aps b lv t =
      match replaceFirst (addHere aps b lv) emptySeg t.children with
      | some cs' => .mk t.level t.appenders cs'
      | none =>
        .mk t.level t.appenders (t.children ++
          [(emptySeg, .mk lv (if b then aps ++ t.appenders else aps) [])]) := by
  obtain ⟨l, a, cs⟩ := t
  exact addHere_eq aps b lv l a cs

theorem add_node_eq (t : ConfiguredLogger) (part : String) (rest : List String)
    (aps : List Nat) (b : Bool) (lv : LogLevelFilter) :
    t.add (part :: rest) aps b lv =
      match replaceFirst (fun c => c.add rest aps b lv) part t.children with
      | some cs' => .mk t.level t.appenders cs'
      | none =>
        .mk t.level t.appenders (t.children ++ [(part,
          if rest.isEmpty then ConfiguredLogger.mk lv (if b then aps ++ t.appenders else aps) []
          else ConfiguredLogger.add (.mk t.level t.appenders []) rest aps b lv)]) := by
  obtain ⟨l, a, cs⟩ := t
  exact add_cons_eq l a cs part rest aps b lv

/-! ### Nodes at existing paths survive an insertion with their fields intact -/

theorem descend_addHere (aps : List Nat) (b : Bool) (lv : LogLevelFilter)
    (t : ConfiguredLogger) (pre : List String) (v : ConfiguredLogger)
    (h : descendExact t pre = some v) :
    ∃ v', descendExact (addHere aps b lv t) pre = some v' ∧
      v'.level = v.level ∧ v'.appenders = v.appenders := by
  cases pre with
  | nil =>
    simp only [descendExact, Option.some.injEq] at h
    subst h
    exact ⟨addHere aps b lv t, rfl,
      addHere_level aps b lv _, addHere_appenders aps b lv _⟩
  | cons p pre' =>
    simp only [descendExact] at h
    cases hc : childFor p t.children with
    | none => rw [hc] at h; cases h
    | some c =>
      rw [hc] at h
      rw [addHere_node_eq]
      cases hrf : replaceFirst (addHere aps b lv) emptySeg t.children with
      | some cs' =>
        have hcf := childFor_replaceFirst hrf p
        by_cases hp : p = emptySeg
        · subst hp
          rw [hc] at hcf
          simp only [if_pos rfl, Option.map_some'] at hcf
          have hrec := descend_addHere aps b lv c pre' v h
          obtain ⟨v', hd, hl2, ha2⟩ := hrec
          exact ⟨v', by simp only [descendExact, children_mk, hcf]; exact hd, hl2, ha2⟩
        · rw [if_neg hp, hc] at hcf
          exact ⟨v, by simp only [descendExact, children_mk, hcf]; exact h, rfl, rfl⟩
      | none =>
        have hcf := childFor_append_some (l := [(emptySeg,
          ConfiguredLogger.mk lv (if b then aps ++ t.appenders else aps) [])]) hc
        exact ⟨v, by simp only [descendExact, children_mk, hcf]; exact h, rfl, rfl⟩
termination_by sizeOf t
decreasing_by
  exact sizeOf_childFor hc

theorem descend_add (aps : List Nat) (b : Bool) (lv : LogLevelFilter)
    (pre : List String) :
    ∀ (t : ConfiguredLogger) (path : List String) (v : ConfiguredLogger),
      descendExact t pre = some v →
      ∃ v', descendExact (t.add path aps b lv) pre = some v' ∧
        v'.level = v.level ∧ v'.appenders = v.appenders := by
  induction pre with
  | nil =>
    intro t path v h
    simp only [descendExact, Option.some.injEq] at h
    subst h
    exact ⟨t.add path aps b lv, rfl, add_level t path aps b lv,
      add_appenders t path aps b lv⟩
  | cons p pre' ih =>
    intro t path v h
    cases path with
    | nil =>
      rw [add_nil_eq]
      exact descend_addHere aps b lv t (p :: pre') v h
    | cons part rest =>
      simp only [descendExact] at h
      cases hc : childFor p t.children with
      | none => rw [hc] at h; cases h
      | some c =>
        rw [hc] at h
        rw [add_node_eq]
        cases hrf : replaceFirst (fun c => c.add rest aps b lv) part t.children with
        | some cs' =>
          have hcf := childFor_replaceFirst hrf p
          by_cases hp : p = part
          · subst hp
            rw [hc] at hcf
            simp only [if_pos rfl, Option.map_some'] at hcf
            obtain ⟨v', hd, hl2, ha2⟩ := ih c rest v h
            exact ⟨v', by simp only [descendExact, children_mk, hcf]; exact hd, hl2, ha2⟩
          · rw [if_neg hp, hc] at hcf
            exact ⟨v, by simp only [descendExact, children_mk, hcf]; exact h, rfl, rfl⟩
        | none =>
          have hcf := childFor_append_some (l := [(part,
            if rest.isEmpty then ConfiguredLogger.mk lv (if b then aps ++ t.appenders else aps) []
            else ConfiguredLogger.add (.mk t.level t.appenders []) rest aps b lv)]) hc
          exact ⟨v, by simp only [descendExact, children_mk, hcf]; exact h, rfl, rfl⟩

/-! ### The no-duplicate-children invariant is preserved by insertion -/

theorem sizeOf_children_mem {s : String} {c : ConfiguredLogger}
    {t : ConfiguredLogger} (h : (s, c) ∈ t.children) : sizeOf c < sizeOf t := by
  obtain ⟨l, a, cs⟩ := t
  exact sizeOf_mem_children h

theorem allDistinct_not_mem {k : String} {keys : List String}
    (h : allDistinct keys = true) (hk : k ∉ keys) :
    allDistinct (keys ++ [k]) = true := by
  induction keys with
  | nil => simp [allDistinct]
  | cons s l ih =>
    simp only [allDistinct, Bool.and_eq_true, Bool.not_eq_true'] at h
    have hks : k ≠ s := fun he => hk (by simp [he])
    have hkl : k ∉ l := fun he => hk (by simp [he])
    simp only [List.cons_append, allDistinct, Bool.and_eq_true, Bool.not_eq_true']
    refine ⟨?_, ih h.2 hkl⟩
    rw [show (l.append [k]) = l ++ [k] from rfl, List.any_append, h.1]
    simp only [Bool.false_or, List.any_cons, List.any_nil, Bool.or_false,
      decide_eq_false_iff_not]
    exact fun he => hks he

theorem map_fst_replaceFirst {f : ConfiguredLogger → ConfiguredLogger} {q : String}
    {cs cs' : List (String × ConfiguredLogger)}
    (h : replaceFirst f q cs = some cs') :
    cs'.map Prod.fst = cs.map Prod.fst := by
  induction cs generalizing cs' with
  | nil => simp [replaceFirst] at h
  | cons hd tl ih =>
    obtain ⟨s, c⟩ := hd
    by_cases hs : s = q
    · subst hs
      simp [replaceFirst] at h
      simp [← h]
    · simp only [replaceFirst, hs, if_false] at h
      cases hr : replaceFirst f q tl with
      | none => rw [hr] at h; cases h
      | some cs2 =>
        rw [hr] at h
        simp only [Option.some.injEq] at h
        simp [← h, ih hr]

theorem nodupB_mk (l : LogLevelFilter) (a : List Nat)
    (cs : List (String × ConfiguredLogger)) :
    nodupB (.mk l a cs) = (allDistinct (cs.map Prod.fst) && nodupChildren cs) := rfl

theorem nodupChildren_iff {cs : List (String × ConfiguredLogger)} :
    nodupChildren cs = true ↔ ∀ x ∈ cs, nodupB x.2 = true := by
  induction cs with
  | nil => simp [nodupChildren]
  | cons hd tl ih =>
    obtain ⟨s, c⟩ := hd
    simp [nodupChildren, Bool.and_eq_true, ih]

theorem nodupB_node (t : ConfiguredLogger) :
    nodupB t = (allDistinct (t.children.map Prod.fst) && nodupChildren t.children) := by
  obtain ⟨l, a, cs⟩ := t
  rfl

theorem nodup_addHere (aps : List Nat) (b : Bool) (lv : LogLevelFilter)
    (t : ConfiguredLogger) (h : nodupB t = true) :
    nodupB (addHere aps b lv t) = true := by
  rw [nodupB_node, Bool.and_eq_true] at h
  obtain ⟨hkeys, hmem⟩ := h
  rw [nodupChildren_iff] at hmem
  rw [addHere_node_eq]
  cases hrf : replaceFirst (addHere aps b lv) emptySeg t.children with
  | some cs' =>
    obtain ⟨l1, c, l2, he, hl1, he'⟩ := replaceFirst_some_decomp hrf
    rw [nodupB_mk, Bool.and_eq_true]
    constructor
    · rw [map_fst_replaceFirst hrf]
      exact hkeys
    · rw [nodupChildren_iff]
      intro x hx
      rw [he'] at hx
      rcases List.mem_append.mp hx with hx1 | hx2
      · exact hmem x (by rw [he]; exact List.mem_append_left _ hx1)
      · rcases List.mem_cons.mp hx2 with hx3 | hx4
        · subst hx3
          have hc : nodupB c = true :=
            hmem (emptySeg, c)
              (by rw [he]; exact List.mem_append_right _ (List.mem_cons_self _ _))
          exact nodup_addHere aps b lv c hc
        · exact hmem x (by rw [he]; simp [hx4])
  | none =>
    have hnone : ∀ x ∈ t.children, x.1 ≠ emptySeg :=
      childFor_eq_none.mp (replaceFirst_eq_none.mp hrf)
    rw [nodupB_mk, Bool.and_eq_true]
    constructor
    · simp only [List.map_append, List.map_cons, List.map_nil]
      refine allDistinct_not_mem hkeys ?_
      intro hk
      obtain ⟨x, hx, hx1⟩ := List.mem_map.mp hk
      exact hnone x hx hx1
    · rw [nodupChildren_iff]
      intro x hx
      rcases List.mem_append.mp hx with hx1 | hx2
      · exact hmem x hx1
      · rcases List.mem_cons.mp hx2 with hx3 | hx4
        · subst hx3
          rfl
        · cases hx4
termination_by sizeOf t
decreasing_by
  have hm : (emptySeg, c) ∈ t.children := by
    rw [he]
    exact List.mem_append_right _ (List.mem_cons_self _ _)
  exact sizeOf_children_mem hm

theorem nodup_add (aps : List Nat) (b : Bool) (lv : LogLevelFilter) :
    ∀ (path : List String) (t : ConfiguredLogger), nodupB t = true →
      nodupB (t.add path aps b lv) = true := by
  intro path
  induction path with
  | nil =>
    intro t h
    rw [add_nil_eq]
    exact nodup_addHere aps b lv t h
  | cons part rest ih =>
    intro t h
    rw [nodupB_node, Bool.and_eq_true] at h
    obtain ⟨hkeys, hmem⟩ := h
    rw [nodupChildren_iff] at hmem
    rw [add_node_eq]
    cases hrf : replaceFirst (fun c => c.add rest aps b lv) part t.children with
    | some cs' =>
      obtain ⟨l1, c, l2, he, hl1, he'⟩ := replaceFirst_some_decomp hrf
      rw [nodupB_mk, Bool.and_eq_true]
      constructor
      · rw [map_fst_replaceFirst hrf]
        exact hkeys
      · rw [nodupChildren_iff]
        intro x hx
        rw [he'] at hx
        rcases List.mem_append.mp hx with hx1 | hx2
        · exact hmem x (by rw [he]; exact List.mem_append_left _ hx1)
        · rcases List.mem_cons.mp hx2 with hx3 | hx4
          · subst hx3
            exact ih c (hmem (part, c)
              (by rw [he]; exact List.mem_append_right _ (List.mem_cons_self _ _)))
          · exact hmem x (by rw [he]; simp [hx4])
    | none =>
      have hnone : ∀ x ∈ t.children, x.1 ≠ part :=
        childFor_eq_none.mp (replaceFirst_eq_none.mp hrf)
      rw [nodupB_mk, Bool.and_eq_true]
      constructor
      · simp only [List.map_append, List.map_cons, List.map_nil]
        refine allDistinct_not_mem hkeys ?_
        intro hkmem
        obtain ⟨x, hx, hx1⟩ := List.mem_map.mp hkmem
        exact hnone x hx hx1
      · rw [nodupChildren_iff]
        intro x hx
        rcases List.mem_append.mp hx with hx1 | hx2
        · exact hmem x hx1
        · rcases List.mem_cons.mp hx2 with hx3 | hx4
          · subst hx3
            by_cases hre : rest.isEmpty
            · simp only [hre, if_true]
              simp [nodupB_mk, allDistinct, nodupChildren]
            · simp only [hre, if_false]
              exact ih _ (by simp [nodupB_mk, allDistinct, nodupChildren])
          · cases hx4

/-! ### Appender indices stored in the tree stay within the sink table -/

theorem boundedB_mk (n : Nat) (l : LogLevelFilter) (a : List Nat)
    (cs : List (String × ConfiguredLogger)) :
    boundedB n (.mk l a cs) = (a.all (fun i => i < n) && boundedChildren n cs) := rfl

theorem boundedB_node (n : Nat) (t : ConfiguredLogger) :
    boundedB n t = (t.appenders.all (fun i => i < n) && boundedChildren n t.children) := by
  obtain ⟨l, a, cs⟩ := t
  rfl

theorem boundedChildren_iff {n : Nat} {cs : List (String × ConfiguredLogger)} :
    boundedChildren n cs = true ↔ ∀ x ∈ cs, boundedB n x.2 = true := by
  induction cs with
  | nil => simp [boundedChildren]
  | cons hd tl ih =>
    obtain ⟨s, c⟩ := hd
    simp [boundedChildren, Bool.and_eq_true, ih]

theorem bounded_addHere (n : Nat) (aps : List Nat) (b : Bool) (lv : LogLevelFilter)
    (t : ConfiguredLogger) (h : boundedB n t = true)
    (haps : aps.all (fun i => i < n) = true) :
    boundedB n (addHere aps b lv t) = true := by
  rw [boundedB_node, Bool.and_eq_true] at h
  obtain ⟨hself, hmem⟩ := h
  rw [boundedChildren_iff] at hmem
  rw [addHere_node_eq]
  cases hrf : replaceFirst (addHere aps b lv) emptySeg t.children with
  | some cs' =>
    obtain ⟨l1, c, l2, he, hl1, he'⟩ := replaceFirst_some_decomp hrf
    rw [boundedB_mk, Bool.and_eq_true]
    refine ⟨hself, ?_⟩
    rw [boundedChildren_iff]
    intro x hx
    rw [he'] at hx
    rcases List.mem_append.mp hx with hx1 | hx2
    · exact hmem x (by rw [he]; exact List.mem_append_left _ hx1)
    · rcases List.mem_cons.mp hx2 with hx3 | hx4
      · subst hx3
        refine bounded_addHere n aps b lv c ?_ haps
        exact hmem (emptySeg, c)
          (by rw [he]; exact List.mem_append_right _ (List.mem_cons_self _ _))
      · exact hmem x (by rw [he]; simp [hx4])
  | none =>
    rw [boundedB_mk, Bool.and_eq_true]
    refine ⟨hself, ?_⟩
    rw [boundedChildren_iff]
    intro x hx
    rcases List.mem_append.mp hx with hx1 | hx2
    · exact hmem x hx1
    · rcases List.mem_cons.mp hx2 with hx3 | hx4
      · subst hx3
        rw [boundedB_mk, Bool.and_eq_true]
        refine ⟨?_, by simp [boundedChildren]⟩
        cases b
        · simpa using haps
        · simp only [if_true, List.all_append]
          rw [Bool.and_eq_true]
          exact ⟨haps, hself⟩
      · cases hx4
termination_by sizeOf t
decreasing_by
  have hm : (emptySeg, c) ∈ t.children := by
    rw [he]
    exact List.mem_append_right _ (List.mem_cons_self _ _)
  exact sizeOf_children_mem hm

theorem bounded_add (n : Nat) (aps : List Nat) (b : Bool) (lv : LogLevelFilter) :
    ∀ (path : List String) (t : ConfiguredLogger), boundedB n t = true →
      aps.all (fun i => i < n) = true →
      boundedB n (t.add path aps b lv) = true := by
  intro path
  induction path with
  | nil =>
    intro t h haps
    rw [add_nil_eq]
    exact bounded_addHere n aps b lv t h haps
  | cons part rest ih =>
    intro t h haps
    rw [boundedB_node, Bool.and_eq_true] at h
    obtain ⟨hself, hmem⟩ := h
    rw [boundedChildren_iff] at hmem
    rw [add_node_eq]
    cases hrf : replaceFirst (fun c => c.add rest aps b lv) part t.children with
    | some cs' =>
      obtain ⟨l1, c, l2, he, hl1, he'⟩ := replaceFirst_some_decomp hrf
      rw [boundedB_mk, Bool.and_eq_true]
      refine ⟨hself, ?_⟩
      rw [boundedChildren_iff]
      intro x hx
      rw [he'] at hx
      rcases List.mem_append.mp hx with hx1 | hx2
      · exact hmem x (by rw [he]; exact List.mem_append_left _ hx1)
      · rcases List.mem_cons.mp hx2 with hx3 | hx4
        · subst hx3
          refine ih c ?_ haps
          exact hmem (part, c)
            (by rw [he]; exact List.mem_append_right _ (List.mem_cons_self _ _))
        · exact hmem x (by rw [he]; simp [hx4])
    | none =>
      rw [boundedB_mk, Bool.and_eq_true]
      refine ⟨hself, ?_⟩
      rw [boundedChildren_iff]
      intro x hx
      rcases List.mem_append.mp hx with hx1 | hx2
      · exact hmem x hx1
      · rcases List.mem_cons.mp hx2 with hx3 | hx4
        · subst hx3
          by_cases hre : rest.isEmpty
          · simp only [hre, if_true]
            rw [boundedB_mk, Bool.and_eq_true]
            refine ⟨?_, by simp [boundedChildren]⟩
            cases b
            · simpa using haps
            · simp only [if_true, List.all_append]
              rw [Bool.and_eq_true]
              exact ⟨haps, hself⟩
          · simp only [hre, if_false]
            refine ih _ ?_ haps
            rw [boundedB_mk, Bool.and_eq_true]
            exact ⟨hself, by simp [boundedChildren]⟩
        · cases hx4

/-! ### The insertion decomposes as one child pushed at one existing node -/

/-- The fresh child created by ConfiguredLogger::add at the node where
the search leaves the existing tree: the target node itself when the
remaining path is empty, otherwise an intermediate node inheriting the
current node's level and appenders into which the rest is inserted. -/
def newChild (l : LogLevelFilter) (a : List Nat) (rest : List String)
    (aps : List Nat) (b : Bool) (lv : LogLevelFilter) : ConfiguredLogger :=
  if rest.isEmpty then .mk lv (if b then aps ++ a else aps) []
  else ConfiguredLogger.add (.mk l a []) rest aps b lv

/-- Appending one fresh child, named `key`, at a node: the sole
modification the insertion performs at the node where it leaves the
existing tree. -/
def pushChild (key : String) (aps : List Nat) (b : Bool) (lv : LogLevelFilter)
    (rest : List String) : ConfiguredLogger → ConfiguredLogger :=
  fun u => .mk u.level u.appenders
    (u.children ++ [(key, newChild u.level u.appenders rest aps b lv)])

theorem updateAt_nil (t : ConfiguredLogger) (f : ConfiguredLogger → ConfiguredLogger) :
    updateAt t [] f = f t := by
  obtain ⟨l, a, cs⟩ := t
  rfl

theorem updateAt_cons (t : ConfiguredLogger) (p : String) (rest : List String)
    (f : ConfiguredLogger → ConfiguredLogger) :
    updateAt t (p :: rest) f =
      .mk t.level t.appenders
        ((replaceFirst (fun c => updateAt c rest f) p t.children).getD t.children) := by
  obtain ⟨l, a, cs⟩ := t
  rfl

theorem childFor_decomp {q : String} {c : ConfiguredLogger}
    {cs : List (String × ConfiguredLogger)} (h : childFor q cs = some c) :
    ∃ l1 l2, cs = l1 ++ (q, c) :: l2 ∧ ∀ x ∈ l1, x.1 ≠ q := by
  induction cs with
  | nil => simp [childFor] at h
  | cons hd tl ih =>
    obtain ⟨s, c0⟩ := hd
    by_cases hs : s = q
    · subst hs
      simp [childFor] at h
      subst h
      exact ⟨[], tl, rfl, by simp⟩
    · simp only [childFor, hs, if_false] at h
      obtain ⟨l1, l2, he, hl1⟩ := ih h
      exact ⟨(s, c0) :: l1, l2, by simp [he], by simpa [hs] using hl1⟩

theorem replaceFirst_of_decomp {q : String} {c : ConfiguredLogger}
    (g : ConfiguredLogger → ConfiguredLogger)
    {l1 l2 : List (String × ConfiguredLogger)} (h : ∀ x ∈ l1, x.1 ≠ q) :
    replaceFirst g q (l1 ++ (q, c) :: l2) = some (l1 ++ (q, g c) :: l2) := by
  induction l1 with
  | nil => simp [replaceFirst]
  | cons hd tl ih =>
    have hne : hd.1 ≠ q := h hd (by simp)
    obtain ⟨s, c0⟩ := hd
    simp only [List.cons_append, replaceFirst, hne, if_false]
    rw [show (tl.append ((q, c) :: l2)) = tl ++ (q, c) :: l2 from rfl,
      ih (fun x hx => h x (by simp [hx]))]

theorem addHere_shape (aps : List Nat) (b : Bool) (lv : LogLevelFilter)
    (t : ConfiguredLogger) :
    ∃ pre v, descendExact t pre = some v ∧ childFor emptySeg v.children = none ∧
      addHere aps b lv t = updateAt t pre (pushChild emptySeg aps b lv []) := by
  rw [addHere_node_eq]
  cases hrf : replaceFirst (addHere aps b lv) emptySeg t.children with
  | none =>
    refine ⟨[], t, by simp [descendExact], replaceFirst_eq_none.mp hrf, ?_⟩
    rw [updateAt_nil]
    simp [pushChild, newChild]
  | some cs' =>
    obtain ⟨l1, c, l2, he, hl1, he'⟩ := replaceFirst_some_decomp hrf
    obtain ⟨pre', v, hdv, hcf, heq⟩ := addHere_shape aps b lv c
    refine ⟨emptySeg :: pre', v, ?_, hcf, ?_⟩
    · simp only [descendExact]
      rw [show childFor emptySeg t.children = some c from by
        rw [he]; exact childFor_of_decomp hl1]
      exact hdv
    · rw [updateAt_cons]
      rw [show replaceFirst (fun c0 => updateAt c0 pre' (pushChild emptySeg aps b lv []))
            emptySeg t.children =
          some (l1 ++ (emptySeg, updateAt c pre' (pushChild emptySeg aps b lv [])) :: l2) from by
        rw [he]; exact replaceFirst_of_decomp _ hl1]
      rw [← heq, ← he']
      rfl
termination_by sizeOf t
decreasing_by
  have hm : (emptySeg, c) ∈ t.children := by
    rw [he]
    exact List.mem_append_right _ (List.mem_cons_self _ _)
  exact sizeOf_children_mem hm

theorem add_shape :
    ∀ (path : List String) (t : ConfiguredLogger) (aps : List Nat) (b : Bool)
      (lv : LogLevelFilter),
      ∃ pre key rest2 v, descendExact t pre = some v ∧
        childFor key v.children = none ∧
        t.add path aps b lv = updateAt t pre (pushChild key aps b lv rest2) := by
  intro path
  induction path with
  | nil =>
    intro t aps b lv
    rw [add_nil_eq]
    obtain ⟨pre, v, hd, hcf, heq⟩ := addHere_shape aps b lv t
    exact ⟨pre, emptySeg, [], v, hd, hcf, heq⟩
  | cons part rest ih =>
    intro t aps b lv
    rw [add_node_eq]
    cases hrf : replaceFirst (fun c => c.add rest aps b lv) part t.children with
    | none =>
      refine ⟨[], part, rest, t, by simp [descendExact],
        replaceFirst_eq_none.mp hrf, ?_⟩
      rw [updateAt_nil]
      simp [pushChild, newChild]
    | some cs' =>
      obtain ⟨l1, c, l2, he, hl1, he'⟩ := replaceFirst_some_decomp hrf
      obtain ⟨pre', key, rest2, v, hd, hcf, heq⟩ := ih c aps b lv
      refine ⟨part :: pre', key, rest2, v, ?_, hcf, ?_⟩
      · simp only [descendExact]
        rw [show childFor part t.children = some c from by
          rw [he]; exact childFor_of_decomp hl1]
        exact hd
      · rw [updateAt_cons]
        rw [show replaceFirst (fun c0 => updateAt c0 pre' (pushChild key aps b lv rest2))
              part t.children =
            some (l1 ++ (part, updateAt c pre' (pushChild key aps b lv rest2)) :: l2) from by
          rw [he]; exact replaceFirst_of_decomp _ hl1]
        rw [← heq, ← he']
        rfl

theorem descend_updateAt_push (key : String) (aps : List Nat) (b : Bool)
    (lv : LogLevelFilter) (rest2 : List String) :
    ∀ (pre : List String) (t v : ConfiguredLogger),
      descendExact t pre = some v → childFor key v.children = none →
      ∀ tail, descendExact (updateAt t pre (pushChild key aps b lv rest2))
          (pre ++ key :: tail) =
        descendExact (newChild v.level v.appenders rest2 aps b lv) tail := by
  intro pre
  induction pre with
  | nil =>
    intro t v hd hcf tail
    simp only [descendExact, Option.some.injEq] at hd
    subst hd
    rw [updateAt_nil]
    simp only [List.nil_append, descendExact, pushChild, children_mk]
    rw [childFor_append_none hcf]
    simp
  | cons p pre' ih =>
    intro t v hd hcf tail
    simp only [descendExact] at hd
    cases hc : childFor p t.children with
    | none => rw [hc] at hd; cases hd
    | some c =>
      rw [hc] at hd
      rw [updateAt_cons]
      obtain ⟨l1, l2, he, hl1⟩ := childFor_decomp hc
      rw [show replaceFirst (fun c0 => updateAt c0 pre' (pushChild key aps b lv rest2))
            p t.children =
          some (l1 ++ (p, updateAt c pre' (pushChild key aps b lv rest2)) :: l2) from by
        rw [he]; exact replaceFirst_of_decomp _ hl1]
      simp only [List.cons_append, descendExact, children_mk, Option.getD_some]
      rw [childFor_of_decomp hl1]
      exact ih c v hd hcf tail

theorem newChild_target (aps : List Nat) (lv : LogLevelFilter) :
    ∀ (rest2 : List String) (l : LogLevelFilter) (a : List Nat),
      ∃ q, descendExact (newChild l a rest2 aps false lv) q = some (.mk lv aps []) := by
  intro rest2
  induction rest2 with
  | nil =>
    intro l a
    exact ⟨[], by simp [newChild, descendExact]⟩
  | cons r rs ih =>
    intro l a
    obtain ⟨q, hq⟩ := ih l a
    refine ⟨r :: q, ?_⟩
    rw [show newChild l a (r :: rs) aps false lv =
        ConfiguredLogger.add (.mk l a []) (r :: rs) aps false lv from by
      simp [newChild]]
    rw [add_node_eq]
    simp only [children_mk, replaceFirst, level_mk, appenders_mk]
    simp only [descendExact, children_mk, List.nil_append]
    rw [show (if rs.isEmpty = true then
          ConfiguredLogger.mk lv (if false = true then aps ++ a else aps) []
        else (ConfiguredLogger.mk l a []).add rs aps false lv) =
      newChild l a rs aps false lv from rfl]
    rw [show childFor r [(r, newChild l a rs aps false lv)] =
      some (newChild l a rs aps false lv) from by simp [childFor]]
    exact hq

/-! ### The resolution walk and its longest-matched characterization -/

theorem find_nil (t : ConfiguredLogger) : t.find [] = t := rfl

theorem find_cons (t : ConfiguredLogger) (p : String) (rest : List String) :
    t.find (p :: rest) =
      match childFor p t.children with
      | some c => c.find rest
      | none => t := rfl

theorem find_walk (t : ConfiguredLogger) (path : List String) :
    ∃ pre suf, path = pre ++ suf ∧ descendExact t pre = some (t.find path) ∧
      (suf = [] ∨ ∃ s rest2, suf = s :: rest2 ∧
        childFor s (t.find path).children = none) := by
  induction path generalizing t with
  | nil => exact ⟨[], [], rfl, by simp [descendExact, find_nil], Or.inl rfl⟩
  | cons p rest ih =>
    cases hc : childFor p t.children with
    | none =>
      have hfind : t.find (p :: rest) = t := by rw [find_cons, hc]
      refine ⟨[], p :: rest, rfl, by simp [descendExact, hfind],
        Or.inr ⟨p, rest, rfl, ?_⟩⟩
      rw [hfind]
      exact hc
    | some c =>
      have hfind : t.find (p :: rest) = c.find rest := by rw [find_cons, hc]
      obtain ⟨pre, suf, he, hd, hstop⟩ := ih c
      refine ⟨p :: pre, suf, by simp [he], ?_, ?_⟩
      · simp only [descendExact, hc]
        rw [hfind]
        exact hd
      · rw [hfind]
        exact hstop

theorem boundedB_find {n : Nat} :
    ∀ (path : List String) (t : ConfiguredLogger), boundedB n t = true →
      boundedB n (t.find path) = true := by
  intro path
  induction path with
  | nil =>
    intro t h
    rw [find_nil]
    exact h
  | cons p rest ih =>
    intro t h
    rw [find_cons]
    cases hc : childFor p t.children with
    | none => exact h
    | some c =>
      refine ih c ?_
      rw [boundedB_node, Bool.and_eq_true] at h
      exact (boundedChildren_iff.mp h.2) _ (childFor_mem hc)

/-! ### Dispatch visits every sink index in order, collecting failures -/

/-- The error reported for one sink index during dispatch, if any. -/
def reportOf (table : List Sink) (rec : LogRecord) (i : Nat) : Option String :=
  match table[i]? with
  | some append =>
    match append rec with
    | .error e => some e
    | .ok _ => none
  | none => none

theorem runAppends_complete (table : List Sink) (rec : LogRecord) :
    ∀ idxs : List Nat, (∀ i ∈ idxs, i < table.length) →
      runAppends table rec idxs =
        some (idxs, idxs.filterMap (reportOf table rec)) := by
  intro idxs
  induction idxs with
  | nil => intro h; simp [runAppends]
  | cons idx rest ih =>
    intro h
    have hidx : idx < table.length := h idx (by simp)
    have hf : table[idx]? = some (table[idx]) := List.getElem?_eq_getElem hidx
    simp only [runAppends, hf]
    rw [ih (fun i hi => h i (by simp [hi]))]
    cases hfr : (table[idx]) rec with
    | error e => simp [List.filterMap_cons, reportOf, hf, hfr]
    | ok u => simp [List.filterMap_cons, reportOf, hf, hfr]

/-! ### Construction keeps every stored index inside the sink table -/

theorem appenderIdx_lt {name : String} :
    ∀ {apps : List ConfigAppender} {i : Nat},
      appenderIdx name apps = some i → i < apps.length := by
  intro apps
  induction apps with
  | nil => intro i h; simp [appenderIdx] at h
  | cons a as ih =>
    intro i h
    simp only [appenderIdx] at h
    cases hr : appenderIdx name as with
    | some j =>
      rw [hr] at h
      simp only [Option.some.injEq] at h
      have := ih hr
      simp [← h]
      omega
    | none =>
      rw [hr] at h
      by_cases hn : a.name = name
      · simp [hn] at h
        simp [← h]
      · simp [hn] at h

theorem lookupAll_bounded {apps : List ConfigAppender} :
    ∀ {ns : List String} {is : List Nat}, lookupAll apps ns = some is →
      is.all (fun i => i < apps.length) = true := by
  intro ns
  induction ns with
  | nil =>
    intro is h
    simp only [lookupAll, Option.some.injEq] at h
    simp [← h]
  | cons n ns2 ih =>
    intro is h
    simp only [lookupAll] at h
    cases hi : appenderIdx n apps with
    | none => rw [hi] at h; cases h
    | some i =>
      rw [hi] at h
      cases hr : lookupAll apps ns2 with
      | none => rw [hr] at h; cases h
      | some is2 =>
        rw [hr] at h
        simp only [Option.some.injEq] at h
        subst h
        simp only [List.all_cons, Bool.and_eq_true]
        exact ⟨by simpa using appenderIdx_lt hi, ih hr⟩

theorem applyLoggers_bounded {apps : List ConfigAppender} :
    ∀ (lgs : List ConfigLogger) (r : ConfiguredLogger),
      boundedB apps.length r = true →
      ∀ root, applyLoggers apps r lgs = some root →
        boundedB apps.length root = true := by
  intro lgs
  induction lgs with
  | nil =>
    intro r hr root h
    simp only [applyLoggers, Option.some.injEq] at h
    subst h
    exact hr
  | cons lg lgs2 ih =>
    intro r hr root h
    simp only [applyLoggers] at h
    cases ha : lookupAll apps lg.appenders with
    | none => rw [ha] at h; cases h
    | some aps =>
      rw [ha] at h
      exact ih _ (bounded_add apps.length aps lg.additive lg.level lg.name r hr
        (lookupAll_bounded ha)) root h

theorem new_bounded {c : Config} {sh : SharedLogger}
    (h : SharedLogger.new c = some sh) :
    boundedB sh.appenders.length sh.root = true := by
  simp only [SharedLogger.new] at h
  split at h
  · cases h
  · rename_i rootAps hra
    split at h
    · cases h
    · rename_i root hal
      simp only [Option.some.injEq] at h
      subst h
      simp only [List.length_map]
      refine applyLoggers_bounded c.loggers _ ?_ root hal
      rw [boundedB_mk, Bool.and_eq_true]
      exact ⟨lookupAll_bounded hra, by simp [boundedChildren]⟩

/-! ### Reload loop and initialization facts -/

theorem reloadStep_maxLevel (p : ProcessState) (meta : Except Unit Nat)
    (load : Except Unit TomlConfig) :
    (processReloadStep p meta load).maxLevel = p.maxLevel := rfl

theorem find_off_leaf (q : List String) :
    (ConfiguredLogger.mk LogLevelFilter.Off [] []).find q = .mk .Off [] [] := by
  cases q with
  | nil => rfl
  | cons a as => rfl

/-- Claim C6: in every running iteration of the reload loop that reads a
changed modification signature, the stored signature is updated to the
new value and the load is attempted, for every outcome of the load; when
the load fails the state keeps everything else unchanged; and afterwards,
as long as the signature read stays the same, no later iteration attempts
a reload or changes the state. -/
theorem claim_c6 (st : ReloadState) (m : Nat) (load : Except Unit TomlConfig)
    (hrun : st.running = true) (hne : m ≠ st.mtime) :
    ((reloadStep st (.ok m) load).1.mtime = m ∧ (reloadStep st (.ok m) load).2 = true) ∧
    (load = .error () → (reloadStep st (.ok m) load).1 = { st with mtime := m }) ∧
    (∀ load', reloadStep { st with mtime := m } (.ok m) load' =
      ({ st with mtime := m }, false)) := by
  refine ⟨?_, ?_, ?_⟩
  · cases load with
    | error e => simp [reloadStep, hrun, hne]
    | ok tc =>
      cases hn : SharedLogger.new tc.config with
      | none => simp [reloadStep, hrun, hne, hn]
      | some sh =>
        cases hr : tc.refresh_rate with
        | none => simp [reloadStep, hrun, hne, hn, hr]
        | some r => simp [reloadStep, hrun, hne, hn, hr]
  · intro he
    subst he
    simp [reloadStep, hrun, hne]
  · intro load'
    simp [reloadStep, hrun]

/-- A reload state used to instantiate the reload theorems. -/
def shOff : SharedLogger := ⟨.mk .Off [] [], []⟩

/-- A concrete running reload state. -/
def stW : ReloadState := { mtime := 0, rate := 5, shared := shOff, running := true }

/-- Witness for C6 at a concrete state: signature 1 differs from the
stored 0, the load fails, and the claimed behavior holds there. -/
theorem claim_c6_witness :
    stW.running = true ∧ (1 : Nat) ≠ stW.mtime ∧
    (((reloadStep stW (.ok 1) (.error ())).1.mtime = 1 ∧
      (reloadStep stW (.ok 1) (.error ())).2 = true) ∧
    ((.error () : Except Unit TomlConfig) = .error () →
      (reloadStep stW (.ok 1) (.error ())).1 = { stW with mtime := 1 }) ∧
    (∀ load', reloadStep { stW with mtime := 1 } (.ok 1) load' =
      ({ stW with mtime := 1 }, false))) :=
  ⟨rfl, by decide, claim_c6 stW 1 (.error ()) rfl (by decide)⟩

/-- Claim C8: a failed initial load still installs the facade, with the
empty fully-disabled configuration (no appenders, root threshold Off,
every event disabled at every level and module path) and no reload loop
started; a failed load during a later reload iteration leaves the
active shared state unchanged. -/
theorem claim_c8 :
    (∃ res, initFile (.error ()) = some res ∧
      res.shared.root = .mk .Off [] [] ∧ res.shared.appenders = [] ∧
      res.maxLevel = .Off ∧ res.reloaderStarted = false ∧
      ∀ (l : LogLevel) (p : List String), loggerEnabled res.shared l p = false) ∧
    (∀ (st : ReloadState) (m : Nat), st.running = true → m ≠ st.mtime →
      (reloadStep st (.ok m) (.error ())).1.shared = st.shared) := by
  constructor
  · refine ⟨⟨.Off, ⟨.mk .Off [] [], []⟩, false⟩, rfl, rfl, rfl, rfl, rfl, ?_⟩
    intro l p
    show (ConfiguredLogger.find _ p).enabled l = false
    rw [find_off_leaf]
    cases l <;> rfl
  · intro st m hrun hne
    simp [reloadStep, hrun, hne]

/-- Witness for C8: the reload-failure clause at a concrete state. -/
theorem claim_c8_witness :
    stW.running = true ∧ (2 : Nat) ≠ stW.mtime ∧
    (reloadStep stW (.ok 2) (.error ())).1.shared = stW.shared :=
  ⟨rfl, by decide, claim_c8.2 stW 2 rfl (by decide)⟩

/-- The configuration swapped in by the failing reload of claim C1:
root threshold Trace, no appenders, no rules. -/
def cfgTrace : Config :=
  { appenders := [], root := { level := .Trace, appenders := [] }, loggers := [] }

/-- The parsed document carrying `cfgTrace` and a further interval. -/
def tcTrace : TomlConfig := { refresh_rate := some 1, config := cfgTrace }

/-- Process state before the failing reload of claim C1: the installed
maximum severity is Error, matching the active tree. -/
def p0 : ProcessState :=
  { maxLevel := .Error,
    reload := { mtime := 0, rate := 1, shared := ⟨.mk .Error [] [], []⟩,
                running := true } }

/-- Process state after the reload of claim C1 succeeds. -/
def p1 : ProcessState := processReloadStep p0 (.ok 1) (.ok tcTrace)

/-- Claim C1 is violated by the code: a reload that swaps in a tree with
maximum severity Trace becomes observable (the shared state is the new
one), yet the process-wide precomputed maximum severity still holds the
stale initialization value Error, and no reload iteration can ever
change it, because the reloader holds no handle to it. -/
theorem claim_c1_counterexample :
    p1.reload.shared.root = .mk .Trace [] [] ∧
    p1.reload.shared.root.max_log_level = .Trace ∧
    p1.maxLevel = .Error ∧
    p1.maxLevel ≠ p1.reload.shared.root.max_log_level ∧
    ∀ (p : ProcessState) (meta : Except Unit Nat) (load : Except Unit TomlConfig),
      (processReloadStep p meta load).maxLevel = p.maxLevel :=
  ⟨rfl, rfl, rfl, by decide, fun p meta load => rfl⟩

/-! ### Claim theorems about the configuration tree -/

/-- Claim C2: inserting a rule whose path already exists as a node keeps
the no-duplicate-children invariant (so no second child is ever created
for a segment that already has one, anywhere, in particular along that
path), and every node sitting on a prefix of that path survives with
its severity filter and appender set unchanged: the matching children
are reused, never replaced or duplicated. -/
theorem claim_c2 (t : ConfiguredLogger) (path : List String) (aps : List Nat)
    (b : Bool) (lv : LogLevelFilter) (u : ConfiguredLogger)
    (hnd : nodupB t = true) (_hu : descendExact t path = some u) :
    nodupB (t.add path aps b lv) = true ∧
    ∀ pre suf v, path = pre ++ suf → descendExact t pre = some v →
      ∃ v', descendExact (t.add path aps b lv) pre = some v' ∧
        v'.level = v.level ∧ v'.appenders = v.appenders :=
  ⟨nodup_add aps b lv path t hnd,
   fun pre _ v _ hv => descend_add aps b lv pre t path v hv⟩

/-- A one-segment path used by concrete witnesses. -/
def segA : List String := ["a"]

/-- A tree holding one rule at path `a`, to which the same path is added
again in the C2 witness. -/
def wTree : ConfiguredLogger :=
  (ConfiguredLogger.mk .Debug [] []).add segA [1] true .Trace

/-- Witness for C2 at a concrete tree: path `a` was already inserted,
and the duplicate insertion keeps the invariant and the node. -/
theorem claim_c2_witness :
    nodupB wTree = true ∧ descendExact wTree segA = some (.mk .Trace [1] []) ∧
    (nodupB (wTree.add segA [2] true .Off) = true ∧
    ∀ pre suf v, segA = pre ++ suf → descendExact wTree pre = some v →
      ∃ v', descendExact (wTree.add segA [2] true .Off) pre = some v' ∧
        v'.level = v.level ∧ v'.appenders = v.appenders) :=
  ⟨by decide, rfl, claim_c2 wTree segA [2] true .Off (.mk .Trace [1] []) (by decide) rfl⟩

/-- Claim C3: the resolution walk performs longest-matched-path lookup:
the looked-up path splits into a matched part, along which the walk
descends by exact segment equality to the returned node, and an
unmatched rest, which is either empty (path exhaustion) or starts with
the first segment having no matching child at the returned node; when
already the first segment matches no child of the root, the matched
part is forced empty and the root itself is returned. -/
theorem claim_c3 (t : ConfiguredLogger) (path : List String) :
    ∃ pre suf, path = pre ++ suf ∧ descendExact t pre = some (t.find path) ∧
      (suf = [] ∨ ∃ s rest2, suf = s :: rest2 ∧
        childFor s (t.find path).children = none) :=
  find_walk t path

/-- Claim C5: a rule inserted with additive = false produces a target
node carrying exactly the rule's own severity filter and appender set,
with no appender inherited from any ancestor, at any depth: a node with
exactly these fields is reachable in the resulting tree. -/
theorem claim_c5 (t : ConfiguredLogger) (path : List String) (aps : List Nat)
    (lv : LogLevelFilter) :
    ∃ q, descendExact (t.add path aps false lv) q = some (.mk lv aps []) := by
  obtain ⟨pre, key, rest2, v, hd, hcf, heq⟩ := add_shape path t aps false lv
  obtain ⟨q, hq⟩ := newChild_target aps lv rest2 v.level v.appenders
  refine ⟨pre ++ key :: q, ?_⟩
  rw [heq, descend_updateAt_push key aps false lv rest2 pre t v hd hcf q]
  exact hq

/-- Claim C10: one insertion changes the tree exactly by appending one
fresh child (whose name does not yet occur among that node's children)
at one node that already existed before the call; every other part of
the tree, in particular the severity filter and the appender set of
every pre-existing node and the order and names of all existing
children, is untouched, as expressed by the update-at-path equation. -/
theorem claim_c10 (t : ConfiguredLogger) (path : List String) (aps : List Nat)
    (b : Bool) (lv : LogLevelFilter) :
    ∃ pre key rest2 v, descendExact t pre = some v ∧
      childFor key v.children = none ∧
      t.add path aps b lv = updateAt t pre (pushChild key aps b lv rest2) :=
  add_shape path t aps b lv

/-! ### Claim theorems about dispatch and construction -/

/-- Claim C7: during dispatch of an enabled event, every sink index of
the resolved node is invoked, in order, regardless of failures of
earlier sinks; each failure only contributes its message to the
reported diagnostics, and nothing is propagated to the caller. -/
theorem claim_c7 (t : ConfiguredLogger) (rec : LogRecord) (table : List Sink)
    (hen : t.enabled rec.level = true)
    (hb : ∀ i ∈ t.appenders, i < table.length) :
    t.log rec table =
      some (t.appenders, t.appenders.filterMap (reportOf table rec)) := by
  simp only [ConfiguredLogger.log, hen, if_true]
  exact runAppends_complete table rec t.appenders hb

/-- A sink whose append always succeeds. -/
def okSink : Sink := fun _ => .ok ()

/-- The message of the failing sink used by witnesses. -/
def msgBoom : String := "boom"

/-- A sink whose append always fails. -/
def failSink : Sink := fun _ => .error msgBoom

/-- The node used by the C7 witness: two sinks, the first failing. -/
def nodeW : ConfiguredLogger := .mk .Trace [0, 1] []

/-- The record used by the concrete dispatch witnesses. -/
def recW : LogRecord := { level := .Error, modulePath := [] }

/-- Witness for C7: with the first sink failing, dispatch still invokes
both sink indices in order and reports exactly the one failure. -/
theorem claim_c7_witness :
    nodeW.enabled recW.level = true ∧ (∀ i ∈ nodeW.appenders, i < 2) ∧
    nodeW.log recW [failSink, okSink] = some ([0, 1], [msgBoom]) :=
  ⟨rfl, by decide, claim_c7 nodeW recW [failSink, okSink] rfl (by decide)⟩

/-- Claim C9: every shared state produced by construction stores only
appender indices below the length of its sink table, so dispatch of any
record, after resolution of any module path, never reaches the
out-of-bounds branch of the table indexing. -/
theorem claim_c9 (c : Config) (sh : SharedLogger)
    (h : SharedLogger.new c = some sh) :
    boundedB sh.appenders.length sh.root = true ∧
    ∀ (rec : LogRecord), ∃ out, loggerLog sh rec = some out := by
  have hb := new_bounded h
  refine ⟨hb, fun rec => ?_⟩
  have hn := boundedB_find rec.modulePath sh.root hb
  rw [boundedB_node, Bool.and_eq_true] at hn
  have hbs : ∀ i ∈ (sh.root.find rec.modulePath).appenders,
      i < sh.appenders.length := by
    simpa [List.all_eq_true] using hn.1
  cases hen : (sh.root.find rec.modulePath).enabled rec.level with
  | false => exact ⟨([], []), by simp [loggerLog, ConfiguredLogger.log, hen]⟩
  | true =>
    refine ⟨((sh.root.find rec.modulePath).appenders,
      (sh.root.find rec.modulePath).appenders.filterMap (reportOf sh.appenders rec)), ?_⟩
    simp only [loggerLog, ConfiguredLogger.log, hen, if_true]
    exact runAppends_complete _ _ _ hbs

/-- The appender name used by the C9 witness configuration. -/
def nameA : String := "a"

/-- The logger path used by the C9 witness configuration. -/
def segX : List String := ["x"]

/-- A concrete configuration with one appender, referenced by the root
and by one non-additive rule. -/
def cW : Config :=
  { appenders := [{ name := nameA, sink := okSink }],
    root := { level := .Debug, appenders := [nameA] },
    loggers := [{ name := segX, appenders := [nameA], additive := false,
                  level := .Trace }] }

/-- The shared state built from `cW`. -/
def shW : SharedLogger :=
  ⟨.mk .Debug [0] [("x", .mk .Trace [0] [])], [okSink]⟩

/-- Witness for C9: construction of the concrete configuration yields a
state whose stored indices are in bounds and whose dispatch always
takes the in-bounds branch. -/
theorem claim_c9_witness :
    SharedLogger.new cW = some shW ∧
    (boundedB shW.appenders.length shW.root = true ∧
      ∀ (rec : LogRecord), ∃ out, loggerLog shW rec = some out) :=
  ⟨rfl, claim_c9 cW shW rfl⟩

/-! ### The concrete enabled scenario -/

/-- The configuration of the concrete scenario: root severity Debug and
three additive rules without appenders. -/
def testConfig : Config :=
  { appenders := [],
    root := { level := .Debug, appenders := [] },
    loggers :=
      [{ name := ["foo", "bar"], appenders := [], additive := true,
         level := .Trace },
       { name := ["foo", "bar", "baz"], appenders := [], additive := true,
         level := .Off },
       { name := ["foo", "baz", "buz"], appenders := [], additive := true,
         level := .Error }] }

/-- Claim C4: on the scenario configuration, the enabled operation
returns exactly the eight claimed values, with module paths taken as
their segment lists. -/
theorem claim_c4 :
    ∃ sh, SharedLogger.new testConfig = some sh ∧
      loggerEnabled sh .Warn (["bar"]) = true ∧
      loggerEnabled sh .Trace (["bar"]) = false ∧
      loggerEnabled sh .Debug (["foo"]) = true ∧
      loggerEnabled sh .Trace (["foo", "bar"]) = true ∧
      loggerEnabled sh .Error (["foo", "bar", "baz"]) = false ∧
      loggerEnabled sh .Debug (["foo", "bar", "bazbuz"]) = true ∧
      loggerEnabled sh .Warn (["foo", "baz", "buz"]) = false ∧
      loggerEnabled sh .Error (["foo", "baz", "buz", "bar"]) = true :=
  ⟨_, rfl, by decide, by decide, by decide, by decide, by decide, by decide,
    by decide, by decide⟩
